import Mathlib

/-!
# Verification of the sff-unpacker core (src/unpacker/app.py)

A shallow embedding of the three core functions of the repository —
`parse_sff`, `sanitize_filename` and `extract_all` — together with proofs
of the testable properties stated for them.

Modelling conventions:
* a byte buffer is a `List Nat` (each element a byte value read from the
  file, hence below 256, though most theorems need no such bound);
* a Python string is a `List Char`;
* a Python slice `data[a:b]` is `(data.take b).drop a`;
* the file handle of `extract_all` is modelled by the buffer plus an
  explicit read cursor, advanced by the number of bytes a read returns
  (Python `f.read(n)` returns at most `n` bytes and never fails);
* the filesystem writes, the progress-callback invocations and the skip
  counter of `extract_all` are collected into an explicit trace.
-/

namespace SffUnpacker

/-- The byte of the buffer at index `i`, zero past the end (used only
under guards that keep the index in range). -/
def byteAt (data : List Nat) (i : Nat) : Nat := data.getD i 0

/-- Python slice `data[a:b]`: the elements from `a` up to and excluding
`b`, clipped to the buffer — total, never an error. -/
def pySlice (data : List Nat) (a b : Nat) : List Nat := (data.take b).drop a

/-- Record size of the directory table, `ENTRY_SIZE` in `parse_sff`. -/
def ENTRY_SIZE : Nat := 136

/-- The reserved terminator size value `0xCCCCCCCC` in `parse_sff`. -/
def SENTINEL : Nat := 0xCCCCCCCC

/-- One directory record as produced by `parse_sff`: the dict with keys
`filename` and `size`. -/
structure Entry where
  filename : List Char
  size : Nat
deriving Repr, DecidableEq

/-- Little-endian unsigned 32-bit decode of exactly four bytes,
`struct.unpack <I`: on any other byte count the Python call raises,
modelled as `none`. -/
def leU32 (bs : List Nat) : Option Nat :=
  match bs with
  | [b0, b1, b2, b3] => some (b0 + 256 * b1 + 65536 * b2 + 16777216 * b3)
  | _ => none

/-- The size field of the record at byte `off`, as the total function the
loop guard of `parse_sff` makes `struct.unpack` behave like (the guard
guarantees four bytes are present; `parseLoopChecked_eq` proves the
agreement with the fallible `leU32` on the slice). -/
def readU32LE (data : List Nat) (off : Nat) : Nat :=
  byteAt data off + 256 * byteAt data (off + 1) +
    65536 * byteAt data (off + 2) + 16777216 * byteAt data (off + 3)

/-- Lossy ASCII decode of one byte, `bytes.decode("ascii", errors="replace")`:
a byte below 128 is itself, any other byte becomes the replacement
character U+FFFD. Total — the lossy decode never raises. -/
def decodeByte (b : Nat) : Char :=
  if b < 128 then Char.ofNat b else Char.ofNat 0xFFFD

/-- The name field decode of `parse_sff`: `name_bytes.split(b"\x00")[0]`
takes the bytes before the first null, then the lossy ASCII decode. -/
def decodeName (bs : List Nat) : List Char :=
  (bs.takeWhile (fun b => b != 0)).map decodeByte

/-- The loop of `parse_sff`, starting at byte `offset`: while a full
136-byte record remains, decode its size; stop on size 0 or the
sentinel; decode the name from bytes 4..131 of the record; stop on an
empty name; otherwise accept the entry and advance 136 bytes. Returns
the entries together with the offset where iteration stopped. -/
def parseLoop (data : List Nat) (offset : Nat) : List Entry × Nat :=
  if _h : offset + ENTRY_SIZE ≤ data.length then
    let size := readU32LE data offset
    if size = 0 ∨ size = SENTINEL then ([], offset)
    else
      let filename := decodeName (pySlice data (offset + 4) (offset + 132))
      if filename = [] then ([], offset)
      else
        let rest := parseLoop data (offset + ENTRY_SIZE)
        (⟨filename, size⟩ :: rest.1, rest.2)
  else ([], offset)
termination_by data.length - offset
decreasing_by simp only [ENTRY_SIZE] at *; omega

/-- The pure core of `parse_sff`: parse the whole buffer from byte 0,
returning the entry list and `data_offset`. -/
def parseSff (data : List Nat) : List Entry × Nat := parseLoop data 0

/-- The loop of `parse_sff` with the fallibility of `struct.unpack` kept
explicit: the size field is decoded by `leU32` from the Python slice
`data[offset:offset+4]`, and a failed decode aborts the whole parse with
`none`. `parseLoopChecked_eq` proves the failure branch is unreachable. -/
def parseLoopChecked (data : List Nat) (offset : Nat) :
    Option (List Entry × Nat) :=
  if _h : offset + ENTRY_SIZE ≤ data.length then
    (leU32 (pySlice data offset (offset + 4))).bind fun size =>
      if size = 0 ∨ size = SENTINEL then some ([], offset)
      else
        let filename := decodeName (pySlice data (offset + 4) (offset + 132))
        if filename = [] then some ([], offset)
        else
          (parseLoopChecked data (offset + ENTRY_SIZE)).map fun rest =>
            (⟨filename, size⟩ :: rest.1, rest.2)
  else some ([], offset)
termination_by data.length - offset
decreasing_by simp only [ENTRY_SIZE] at *; omega

/-- Record `k` of the table is accepted by `parse_sff`: the full
136-byte record is inside the buffer, the size field is neither 0 nor
the sentinel, and the decoded name is nonempty. -/
def acceptedRecord (data : List Nat) (k : Nat) : Bool :=
  decide (136 * k + 136 ≤ data.length) &&
    (readU32LE data (136 * k) != 0) &&
    (readU32LE data (136 * k) != SENTINEL) &&
    !(decodeName (pySlice data (136 * k + 4) (136 * k + 132))).isEmpty

/-- The reserved character set of `sanitize_filename`, the raw Python
string between the quotes of the membership test. -/
def reservedChars : List Char := ['\\', '/', ':', '*', '?', '"', '<', '>', '|']

/-- Python `str.isprintable` of one character. Names in this program are
produced by the ASCII-with-replacement decode of `parse_sff`, so every
character is below U+0080 or is U+FFFD; on that alphabet (indeed on all
of Latin-1 and U+FFFD) this matches CPython: the C0 and C1 control
blocks, DEL, NBSP and the soft hyphen are not printable, space is. Code
points above U+00FF other than U+FFFD are outside what the program can
produce and are treated as printable. -/
def pyIsPrintable (c : Char) : Bool :=
  let v := c.toNat
  if v = 0x20 then true
  else if v < 0x21 then false
  else if v ≤ 0x7E then true
  else if v ≤ 0xA0 then false
  else if v = 0xAD then false
  else true

/-- Python `str.isspace` of one character, the characters `str.strip`
removes: the ASCII whitespace and separator controls plus the Unicode
space separators. -/
def pyIsSpace (c : Char) : Bool :=
  let v := c.toNat
  (0x09 ≤ v && v ≤ 0x0D) || v = 0x20 || (0x1C ≤ v && v ≤ 0x1F) ||
    v = 0x85 || v = 0xA0 || v = 0x1680 || (0x2000 ≤ v && v ≤ 0x200A) ||
    v = 0x2028 || v = 0x2029 || v = 0x202F || v = 0x205F || v = 0x3000

/-- The filter predicate of `sanitize_filename`: keep a character iff it
is printable and not in the reserved set. -/
def keepChar (c : Char) : Bool := pyIsPrintable c && !reservedChars.contains c

/-- Python `str.strip()`: drop whitespace from the front, then from the
back. -/
def pyStrip (s : List Char) : List Char :=
  ((s.dropWhile pyIsSpace).reverse.dropWhile pyIsSpace).reverse

/-- The literal placeholder `_unnamed` of `sanitize_filename`. -/
def unnamedPlaceholder : List Char := ['_', 'u', 'n', 'n', 'a', 'm', 'e', 'd']

/-- The function `sanitize_filename`: keep the printable non-reserved
characters, strip surrounding whitespace, and fall back to the
placeholder when nothing remains (Python `cleaned.strip() or "_unnamed"`). -/
def sanitizeFilename (s : List Char) : List Char :=
  let stripped := pyStrip (s.filter keepChar)
  if stripped = [] then unnamedPlaceholder else stripped

/-- Separator normalization of `extract_all`:
`filename.replace("\\", "/")`. -/
def normalizeSeps (s : List Char) : List Char :=
  s.map (fun c => if c = '\\' then '/' else c)

/-- Python `str.split("/")` on a character list: always at least one
part, and one extra empty part for every slash. -/
def splitOnSlash : List Char → List (List Char)
  | [] => [[]]
  | c :: rest =>
    let r := splitOnSlash rest
    if c = '/' then [] :: r
    else (c :: r.headD []) :: r.tail

/-- The raw path parts of `extract_all`:
`entry["filename"].replace("\\", "/").split("/")`. -/
def pathParts (s : List Char) : List (List Char) :=
  splitOnSlash (normalizeSeps s)

/-- The sanitized parts of `extract_all`:
`[sanitize_filename(p) for p in parts]`. -/
def sanitizedParts (s : List Char) : List (List Char) :=
  (pathParts s).map sanitizeFilename

/-- The corruption test of one sanitized part,
`p in ("", "_unnamed")`. -/
def unusablePart (p : List Char) : Bool :=
  p == ([] : List Char) || p == unnamedPlaceholder

/-- The skip condition of `extract_all`:
`all(p in ("", "_unnamed") for p in parts)` over the sanitized parts of
the entry name. -/
def entryUnrecoverable (e : Entry) : Bool :=
  (sanitizedParts e.filename).all unusablePart

/-- What `extract_all` did with one entry: skipped it, or wrote the file
at the joined sanitized parts with the bytes the read returned. -/
inductive EntryOutcome where
  | skipped : EntryOutcome
  | wrote (parts : List (List Char)) (content : List Nat) : EntryOutcome
deriving Repr, DecidableEq

/-- Whether an outcome is a skip. -/
def isSkip : EntryOutcome → Bool
  | .skipped => true
  | .wrote _ _ => false

/-- The observable trace of one `extract_all` run: the per-entry
outcomes in entry order, the `progress_cb` invocations in call order,
the final value of the `skipped` counter, and the final read cursor of
the source handle. -/
structure ExtractResult where
  outcomes : List EntryOutcome
  progress : List (Nat × Nat)
  skipped : Nat
  cursor : Nat
deriving Repr, DecidableEq

/-- The loop of `extract_all` over the remaining entries, with `i` the
index of the next entry and `cursor` the position of the file handle.
Each step models `f.read(entry["size"])` as the slice from the cursor,
which advances by the number of bytes actually returned (at most the
requested size — Python read at end of file returns what remains). -/
def extractLoop (data : List Nat) (total : Nat) :
    List Entry → Nat → Nat → ExtractResult
  | [], _, cursor => ⟨[], [], 0, cursor⟩
  | e :: rest, i, cursor =>
    let fileData := pySlice data cursor (cursor + e.size)
    let parts := sanitizedParts e.filename
    let r := extractLoop data total rest (i + 1) (cursor + fileData.length)
    if parts.all unusablePart then
      ⟨.skipped :: r.outcomes, (i + 1, total) :: r.progress,
        r.skipped + 1, r.cursor⟩
    else
      ⟨.wrote parts fileData :: r.outcomes, (i + 1, total) :: r.progress,
        r.skipped, r.cursor⟩

/-- The function `extract_all`: seek to `data_offset`, then process the
entries in order, collecting the trace. -/
def extractAll (data : List Nat) (entries : List Entry) (dataOffset : Nat) :
    ExtractResult :=
  extractLoop data entries.length entries 0 dataOffset

/-- Sum of the declared sizes of a list of entries. -/
def sumSizes (entries : List Entry) : Nat :=
  (entries.map Entry.size).sum

/-- The fallible parse of the whole buffer, from byte 0. -/
def parseSffChecked (data : List Nat) : Option (List Entry × Nat) :=
  parseLoopChecked data 0

/-- Sequential composition of two extraction traces: the runs happen one
after the other, so outcomes and progress calls concatenate, skip counts
add, and the cursor is where the second run left it. -/
def seqResult (r1 r2 : ExtractResult) : ExtractResult :=
  ⟨r1.outcomes ++ r2.outcomes, r1.progress ++ r2.progress,
    r1.skipped + r2.skipped, r2.cursor⟩

/-- Concrete buffer for the truncation counterexample: 40 payload bytes. -/
def cexData : List Nat := List.replicate 40 7

/-- Concrete entry name for the truncation counterexample. -/
def cexName : List Char := ['a']

/-- Concrete buffer for the short-read witness: 40 payload bytes. -/
def wData1 : List Nat := List.replicate 40 9

/-- Concrete entry name for the short-read witness. -/
def wName1 : List Char := ['b']

/-- A well-formed directory record: size 5, name the single letter a. -/
def wRecGood : List Nat := [5, 0, 0, 0, 97] ++ List.replicate 131 0

/-- A terminator record whose size field is the sentinel. -/
def wRecSentinel : List Nat := [0xCC, 0xCC, 0xCC, 0xCC] ++ List.replicate 132 0

/-- Concrete buffer for the sentinel witness: one good record, then the
sentinel record. -/
def wSentData : List Nat := wRecGood ++ wRecSentinel

/-- One record whose four trailing bytes are zero. -/
def tailData1 : List Nat := [5, 0, 0, 0, 97] ++ List.replicate 127 0 ++ [0, 0, 0, 0]

/-- The same record with different trailing bytes. -/
def tailData2 : List Nat := [5, 0, 0, 0, 97] ++ List.replicate 127 0 ++ [1, 2, 3, 4]

/-- Concrete payload buffer for the cursor witness. -/
def wCurData : List Nat := [1, 2, 3, 4]

/-- Concrete entries for the cursor witness: a corrupted name followed
by a good one. -/
def wCurEntries : List Entry := [⟨['?', '?', '?'], 2⟩, ⟨['o', 'k'], 2⟩]

/-! ## Lemmas about the directory parser -/

/-- The stop offset of the parse loop is the start offset plus one
record size per accepted entry. -/
theorem parseLoop_snd (data : List Nat) (off : Nat) :
    (parseLoop data off).2 = off + ENTRY_SIZE * (parseLoop data off).1.length := by
  induction off using parseLoop.induct data
  all_goals rw [parseLoop]
  all_goals split <;> simp_all
  all_goals try (split <;> simp_all)
  all_goals ring

/-- Auxiliary form of the record-count characterization, fuelled by an
upper bound so that plain induction applies: starting at record `k`,
the loop accepts exactly the records up to the first non-accepted one. -/
theorem parseLoop_accepted_aux (data : List Nat) (n : Nat) :
    ∀ k, data.length < 136 * k + n →
      ((∀ j, j < (parseLoop data (136 * k)).1.length →
          acceptedRecord data (k + j) = true) ∧
        acceptedRecord data (k + (parseLoop data (136 * k)).1.length) = false) := by
  induction n with
  | zero =>
    intro k hk
    have hguard : ¬(136 * k + ENTRY_SIZE ≤ data.length) := by
      simp only [ENTRY_SIZE]; omega
    rw [parseLoop, dif_neg hguard]
    refine ⟨by intro j hj; simp at hj, ?_⟩
    simp only [acceptedRecord, List.length_nil, Nat.add_zero]
    have : ¬(136 * k + 136 ≤ data.length) := by
      simp only [ENTRY_SIZE] at hguard; omega
    simp [this]
  | succ n ih =>
    intro k hk
    by_cases hguard : 136 * k + ENTRY_SIZE ≤ data.length
    · rw [parseLoop, dif_pos hguard]
      by_cases hsize : readU32LE data (136 * k) = 0 ∨ readU32LE data (136 * k) = SENTINEL
      · simp only [if_pos hsize]
        refine ⟨by intro j hj; simp at hj, ?_⟩
        simp only [List.length_nil, Nat.add_zero, acceptedRecord]
        rcases hsize with h | h <;> simp [h]
      · simp only [if_neg hsize]
        by_cases hname : decodeName (pySlice data (136 * k + 4) (136 * k + 132)) = []
        · simp only [if_pos hname]
          refine ⟨by intro j hj; simp at hj, ?_⟩
          simp only [List.length_nil, Nat.add_zero, acceptedRecord]
          simp [hname]
        · simp only [if_neg hname]
          have hstep : 136 * k + ENTRY_SIZE = 136 * (k + 1) := by
            simp only [ENTRY_SIZE]; ring
          rw [hstep]
          have hlt : data.length < 136 * (k + 1) + n := by
            simp only [ENTRY_SIZE] at hguard; omega
          obtain ⟨ih1, ih2⟩ := ih (k + 1) hlt
          push_neg at hsize
          constructor
          · intro j hj
            match j with
            | 0 =>
              simp only [Nat.add_zero, acceptedRecord]
              simp only [ENTRY_SIZE] at hguard
              simp [hguard, hsize.1, hsize.2, hname]
            | j' + 1 =>
              have := ih1 j' (by simpa using hj)
              simpa [Nat.add_comm, Nat.add_assoc, Nat.add_left_comm] using this
          · have := ih2
            simp only [List.length_cons]
            simpa [Nat.add_comm, Nat.add_assoc, Nat.add_left_comm] using this
    · rw [parseLoop, dif_neg hguard]
      refine ⟨by intro j hj; simp at hj, ?_⟩
      simp only [acceptedRecord, List.length_nil, Nat.add_zero]
      have : ¬(136 * k + 136 ≤ data.length) := by
        simp only [ENTRY_SIZE] at hguard; omega
      simp [this]

/-- Record-count characterization of the parse result: the entry list
consists of exactly the accepted records before the first record that
is not accepted. -/
theorem parseLoop_accepted (data : List Nat) :
    (∀ j, j < (parseSff data).1.length → acceptedRecord data j = true) ∧
      acceptedRecord data ((parseSff data).1.length) = false := by
  have h := parseLoop_accepted_aux data (data.length + 1) 0 (by omega)
  simpa [parseSff] using h

/-- Length of a Python slice. -/
theorem length_pySlice (data : List Nat) (a b : Nat) :
    (pySlice data a b).length = min b data.length - a := by
  simp [pySlice]

/-- A slice element is the buffer byte at the shifted index. -/
theorem getElem_pySlice (data : List Nat) (a b i : Nat)
    (h : i < (pySlice data a b).length) :
    (pySlice data a b)[i] = byteAt data (a + i) := by
  have h1 : a + i < data.length := by
    simp only [length_pySlice] at h; omega
  simp only [pySlice, List.getElem_drop, List.getElem_take]
  rw [byteAt, List.getD_eq_getElem _ _ h1]

/-- Two buffers of the same length that agree byte for byte on the index
range of a slice have equal slices. -/
theorem pySlice_congr {d1 d2 : List Nat} (hlen : d1.length = d2.length)
    (a b : Nat) (h : ∀ i, a ≤ i → i < b → byteAt d1 i = byteAt d2 i) :
    pySlice d1 a b = pySlice d2 a b := by
  apply List.ext_getElem
  · simp [length_pySlice, hlen]
  · intro i h1 h2
    rw [getElem_pySlice d1 a b i h1, getElem_pySlice d2 a b i h2]
    have hb : a + i < b := by
      simp only [length_pySlice] at h1; omega
    exact h (a + i) (by omega) hb

/-- A four-byte slice that lies inside the buffer, written out. -/
theorem pySlice_four (data : List Nat) (off : Nat) (h : off + 4 ≤ data.length) :
    pySlice data off (off + 4) =
      [byteAt data off, byteAt data (off + 1),
        byteAt data (off + 2), byteAt data (off + 3)] := by
  apply List.ext_getElem
  · rw [length_pySlice]; simp; omega
  · intro i h1 h2
    rw [getElem_pySlice data off (off + 4) i h1]
    simp only [List.length_cons, List.length_nil] at h2
    interval_cases i <;> simp [byteAt]

/-- Under the loop guard, the fallible size decode succeeds and returns
the total one. -/
theorem leU32_pySlice (data : List Nat) (off : Nat) (h : off + 4 ≤ data.length) :
    leU32 (pySlice data off (off + 4)) = some (readU32LE data off) := by
  rw [pySlice_four data off h]; rfl

/-- The fallible parse loop never fails, and returns exactly the result
of the total one: the guard guarantees the size decode always has its
four bytes, and the lossy name decode is total. -/
theorem parseLoopChecked_eq (data : List Nat) (off : Nat) :
    parseLoopChecked data off = some (parseLoop data off) := by
  rw [parseLoop]
  rw [parseLoopChecked]
  by_cases hguard : off + ENTRY_SIZE ≤ data.length
  · rw [dif_pos hguard, dif_pos hguard]
    have h4 : off + 4 ≤ data.length := by
      simp only [ENTRY_SIZE] at hguard; omega
    rw [leU32_pySlice data off h4, Option.some_bind]
    by_cases hsize : readU32LE data off = 0 ∨ readU32LE data off = SENTINEL
    · simp only [if_pos hsize]
    · simp only [if_neg hsize]
      by_cases hname : decodeName (pySlice data (off + 4) (off + 132)) = []
      · simp only [if_pos hname]
      · simp only [if_neg hname]
        rw [parseLoopChecked_eq data (off + ENTRY_SIZE)]
        rfl
  · rw [dif_neg hguard, dif_neg hguard]
termination_by data.length - off
decreasing_by simp only [ENTRY_SIZE] at *; omega

/-- Auxiliary form of tail-independence, fuelled for plain induction:
two buffers of one length that agree on every byte whose index is below
132 modulo 136 parse identically from any record boundary. The parser
reads only the size field (record bytes 0..3) and the name field
(record bytes 4..131) of each record, never the trailing four bytes. -/
theorem parseLoop_congr_aux (d1 d2 : List Nat) (hlen : d1.length = d2.length)
    (hagree : ∀ i, i % 136 < 132 → byteAt d1 i = byteAt d2 i) (n : Nat) :
    ∀ k, d1.length < 136 * k + n →
      parseLoop d1 (136 * k) = parseLoop d2 (136 * k) := by
  induction n with
  | zero =>
    intro k hk
    have h1 : ¬(136 * k + ENTRY_SIZE ≤ d1.length) := by
      simp only [ENTRY_SIZE]; omega
    have h2 : ¬(136 * k + ENTRY_SIZE ≤ d2.length) := by
      simp only [ENTRY_SIZE]; omega
    rw [parseLoop, dif_neg h1, parseLoop, dif_neg h2]
  | succ n ih =>
    intro k hk
    have hsize : readU32LE d1 (136 * k) = readU32LE d2 (136 * k) := by
      simp only [readU32LE]
      rw [hagree (136 * k) (by omega), hagree (136 * k + 1) (by omega),
        hagree (136 * k + 2) (by omega), hagree (136 * k + 3) (by omega)]
    have hname : pySlice d1 (136 * k + 4) (136 * k + 132)
        = pySlice d2 (136 * k + 4) (136 * k + 132) :=
      pySlice_congr hlen _ _ (fun i hi1 hi2 => hagree i (by omega))
    by_cases hguard : 136 * k + ENTRY_SIZE ≤ d1.length
    · have hguard2 : 136 * k + ENTRY_SIZE ≤ d2.length := by omega
      have hstep : 136 * k + ENTRY_SIZE = 136 * (k + 1) := by
        simp only [ENTRY_SIZE]; ring
      have hrec : parseLoop d1 (136 * (k + 1)) = parseLoop d2 (136 * (k + 1)) :=
        ih (k + 1) (by simp only [ENTRY_SIZE] at hguard; omega)
      conv_lhs => rw [parseLoop]
      conv_rhs => rw [parseLoop]
      rw [dif_pos hguard, dif_pos hguard2]
      rw [hsize, hname, hstep, hrec]
    · have hguard2 : ¬(136 * k + ENTRY_SIZE ≤ d2.length) := by omega
      rw [parseLoop, dif_neg hguard, parseLoop, dif_neg hguard2]

/-! ## Lemmas about the path sanitizer -/

/-- A character of the stripped string is a character of the string. -/
theorem mem_pyStrip {c : Char} {s : List Char} (h : c ∈ pyStrip s) : c ∈ s := by
  simp only [pyStrip, List.mem_reverse] at h
  have h1 : c ∈ (s.dropWhile pyIsSpace).reverse :=
    (List.dropWhile_sublist pyIsSpace).mem h
  rw [List.mem_reverse] at h1
  exact (List.dropWhile_sublist pyIsSpace).mem h1

/-- Dropping a satisfied front twice is dropping it once. -/
theorem dropWhile_idem (p : Char → Bool) (l : List Char) :
    (l.dropWhile p).dropWhile p = l.dropWhile p := by
  induction l with
  | nil => rfl
  | cons a l ih =>
    by_cases h : p a
    · simp [List.dropWhile_cons, h, ih]
    · simp [List.dropWhile_cons, h]

/-- A front portion of a list whose front drops nothing also drops
nothing. -/
theorem dropWhile_eq_self_of_append {p : Char → Bool} {l1 l2 l : List Char}
    (hl : l1 ++ l2 = l) (h : l.dropWhile p = l) : l1.dropWhile p = l1 := by
  cases l1 with
  | nil => rfl
  | cons a t =>
    rw [← hl] at h
    simp only [List.cons_append] at h
    have hpa : ¬(p a = true) := by
      intro hpa
      rw [List.dropWhile_cons_of_pos hpa] at h
      have hlen := congrArg List.length h
      have hle : ((t ++ l2).dropWhile p).length ≤ (t ++ l2).length :=
        (List.dropWhile_sublist p).length_le
      simp only [List.length_cons] at hlen
      omega
    rw [List.dropWhile_cons_of_neg hpa]

/-- Python strip is idempotent. -/
theorem pyStrip_idem (s : List Char) : pyStrip (pyStrip s) = pyStrip s := by
  have hA0 : (s.dropWhile pyIsSpace).dropWhile pyIsSpace = s.dropWhile pyIsSpace :=
    dropWhile_idem pyIsSpace s
  -- the front of the stripped string drops nothing
  have hfront : (pyStrip s).dropWhile pyIsSpace = pyStrip s := by
    have happ : pyStrip s
        ++ ((s.dropWhile pyIsSpace).reverse.takeWhile pyIsSpace).reverse
        = s.dropWhile pyIsSpace := by
      rw [pyStrip, ← List.reverse_append,
        List.takeWhile_append_dropWhile, List.reverse_reverse]
    exact dropWhile_eq_self_of_append happ hA0
  -- the back of the stripped string drops nothing either
  have hback : (pyStrip s).reverse = ((s.dropWhile pyIsSpace).reverse).dropWhile pyIsSpace := by
    rw [pyStrip, List.reverse_reverse]
  rw [pyStrip, hfront, hback, dropWhile_idem, ← hback, List.reverse_reverse]

/-- Every character the sanitizer returns passes its own filter: it is
printable and outside the reserved set. -/
theorem keepChar_of_mem_sanitize {s : List Char} {c : Char}
    (h : c ∈ sanitizeFilename s) : keepChar c = true := by
  rw [sanitizeFilename] at h
  by_cases he : pyStrip (s.filter keepChar) = []
  · rw [if_pos he] at h
    simp only [unnamedPlaceholder, List.mem_cons, List.not_mem_nil, or_false] at h
    rcases h with rfl | rfl | rfl | rfl | rfl | rfl | rfl | rfl <;> decide
  · rw [if_neg he] at h
    exact (List.mem_filter.mp (mem_pyStrip h)).2

/-- The sanitizer is idempotent. -/
theorem sanitizeFilename_idem (s : List Char) :
    sanitizeFilename (sanitizeFilename s) = sanitizeFilename s := by
  by_cases he : pyStrip (s.filter keepChar) = []
  · have hs : sanitizeFilename s = unnamedPlaceholder := by
      rw [sanitizeFilename, if_pos he]
    rw [hs]
    decide
  · have hs : sanitizeFilename s = pyStrip (s.filter keepChar) := by
      rw [sanitizeFilename, if_neg he]
    rw [hs]
    have hfil : (pyStrip (s.filter keepChar)).filter keepChar
        = pyStrip (s.filter keepChar) := by
      apply List.filter_eq_self.mpr
      intro c hc
      exact (List.mem_filter.mp (mem_pyStrip hc)).2
    rw [sanitizeFilename, hfil, pyStrip_idem, if_neg he]

/-! ## Lemmas about the extraction engine -/

/-- Shifting the start index of the expected progress-call list. -/
theorem range_map_shift (i total n : Nat) :
    (List.range (n + 1)).map (fun j => (i + j + 1, total))
      = (i + 1, total) :: (List.range n).map (fun j => (i + 1 + j + 1, total)) := by
  rw [List.range_succ_eq_map, List.map_cons, List.map_map]
  congr 1
  apply List.map_congr_left
  intro j hj
  simp only [Function.comp_apply]
  congr 1
  omega

/-- The progress calls of the loop: one call per entry, in order, with
the running index. -/
theorem extractLoop_progress (data : List Nat) (total : Nat) (entries : List Entry) :
    ∀ i cursor, (extractLoop data total entries i cursor).progress
      = (List.range entries.length).map (fun j => (i + j + 1, total)) := by
  induction entries with
  | nil => intro i cursor; rfl
  | cons e rest ih =>
    intro i cursor
    simp only [extractLoop, List.length_cons]
    rw [range_map_shift]
    split <;> simp [ih]

/-- Processing a concatenation of entry lists is processing the first
list, then the second from the cursor and index the first one reached. -/
theorem extractLoop_append (data : List Nat) (total : Nat) (xs ys : List Entry) :
    ∀ i cursor, extractLoop data total (xs ++ ys) i cursor
      = seqResult (extractLoop data total xs i cursor)
          (extractLoop data total ys (i + xs.length)
            (extractLoop data total xs i cursor).cursor) := by
  induction xs with
  | nil =>
    intro i cursor
    simp [extractLoop, seqResult]
  | cons e xs ih =>
    intro i cursor
    simp only [List.cons_append, extractLoop, List.length_cons]
    simp only [List.append_eq]
    rw [ih]
    have harith : i + (xs.length + 1) = i + 1 + xs.length := by omega
    rw [harith]
    split <;> (simp [seqResult]; try omega)

/-- When the source holds enough bytes, every read returns its full
requested size and the cursor ends at the start plus the size sum —
whether entries were written or skipped. -/
theorem extractLoop_cursor (data : List Nat) (total : Nat) (entries : List Entry) :
    ∀ i cursor, cursor + sumSizes entries ≤ data.length →
      (extractLoop data total entries i cursor).cursor
        = cursor + sumSizes entries := by
  induction entries with
  | nil => intro i cursor h; simp [extractLoop, sumSizes]
  | cons e rest ih =>
    intro i cursor h
    simp only [sumSizes, List.map_cons, List.sum_cons] at h
    have hread : (pySlice data cursor (cursor + e.size)).length = e.size := by
      rw [length_pySlice]; omega
    have hrest := ih (i + 1) (cursor + e.size)
      (by simp only [sumSizes]; omega)
    simp only [extractLoop, hread]
    split <;> simp [hrest, sumSizes] <;> omega

/-- The per-entry skip structure of the loop: the i-th outcome is a skip
exactly when the i-th entry has an unrecoverable name, and the skip
counter counts exactly those entries. -/
theorem extractLoop_skips (data : List Nat) (total : Nat) (entries : List Entry) :
    ∀ i cursor, (extractLoop data total entries i cursor).outcomes.map isSkip
        = entries.map entryUnrecoverable ∧
      (extractLoop data total entries i cursor).skipped
        = (entries.filter entryUnrecoverable).length := by
  induction entries with
  | nil => intro i cursor; exact ⟨rfl, rfl⟩
  | cons e rest ih =>
    intro i cursor
    obtain ⟨ih1, ih2⟩ := ih (i + 1)
      (cursor + (pySlice data cursor (cursor + e.size)).length)
    simp only [extractLoop]
    by_cases hu : entryUnrecoverable e
    · rw [if_pos (by exact hu)]
      refine ⟨?_, ?_⟩
      · simp [isSkip, ih1, hu]
      · simp [List.filter_cons, hu, ih2]
    · rw [if_neg (by simpa [entryUnrecoverable] using hu)]
      refine ⟨?_, ?_⟩
      · simp [isSkip, ih1, Bool.not_eq_true] at *
        simp [hu]
      · simp [List.filter_cons, hu, ih2]

/-- Splitting an extraction run at entry index i, when the source holds
the payload bytes of the first i entries: the run equals the run of the
first i entries followed by the run of the rest, started at the cursor
the prefix reached, which is the data offset plus the sizes of the
first i entries. -/
theorem extractLoop_split (data : List Nat) (total : Nat) (entries : List Entry)
    (i off : Nat) (h : off + sumSizes (entries.take i) ≤ data.length)
    (hi : i ≤ entries.length) :
    extractLoop data total entries 0 off
      = seqResult (extractLoop data total (entries.take i) 0 off)
          (extractLoop data total (entries.drop i) i
            (off + sumSizes (entries.take i))) := by
  conv_lhs => rw [← List.take_append_drop i entries]
  rw [extractLoop_append]
  rw [extractLoop_cursor data total (entries.take i) 0 off h]
  rw [Nat.zero_add, List.length_take, Nat.min_eq_left hi]

/-! ## The claims -/

/-- C1, counterexample: an entry declaring size 100 with only 40 bytes
remaining in the source does not abort extraction: no error of any kind
is raised, the run completes with one progress call, and the entry file
IS written — holding the 40 available bytes, a partial file. This
refutes the claim that the extraction fails with TruncatedArchiveError
before writing the entry file. -/
theorem extract_truncated_writes_short_file :
    (extractAll cexData [⟨cexName, 100⟩] 0).outcomes
        = [.wrote [cexName] cexData] ∧
      cexData.length = 40 ∧
      (extractAll cexData [⟨cexName, 100⟩] 0).progress = [(1, 1)] := by
  decide

/-- C1, amended: the engine reads at most `size` bytes per entry; when
fewer than `size` bytes remain, the read returns fewer bytes, no error
is raised, the entry file is still written (when its name is usable)
with exactly the bytes the read returned, and extraction continues with
the remaining entries; entries already processed are unaffected. -/
theorem extract_short_read (data : List Nat) (total i off : Nat) (e : Entry)
    (rest : List Entry) (h1 : data.length < off + e.size) (h2 : 0 < e.size)
    (h3 : entryUnrecoverable e = false) :
    (pySlice data off (off + e.size)).length < e.size ∧
      extractLoop data total (e :: rest) i off
        = seqResult
            ⟨[.wrote (sanitizedParts e.filename) (pySlice data off (off + e.size))],
              [(i + 1, total)], 0, off + (pySlice data off (off + e.size)).length⟩
            (extractLoop data total rest (i + 1)
              (off + (pySlice data off (off + e.size)).length)) := by
  constructor
  · rw [length_pySlice]; omega
  · simp only [extractLoop]
    rw [if_neg (by
      simp [show (sanitizedParts e.filename).all unusablePart = false from h3])]
    simp [seqResult]

/-- Witness for the amended C1, at a 40-byte source and an entry of
declared size 100. -/
theorem extract_short_read_witness :
    (pySlice wData1 0 (0 + 100)).length < 100 ∧
      extractLoop wData1 1 [⟨wName1, 100⟩] 0 0
        = seqResult
            ⟨[.wrote (sanitizedParts wName1) (pySlice wData1 0 (0 + 100))],
              [(0 + 1, 1)], 0, 0 + (pySlice wData1 0 (0 + 100)).length⟩
            (extractLoop wData1 1 [] (0 + 1)
              (0 + (pySlice wData1 0 (0 + 100)).length)) :=
  extract_short_read wData1 1 0 0 ⟨wName1, 100⟩ [] (by decide) (by decide)
    (by decide)

/-- C2: parsing is a total function (it terminates on every buffer),
and the returned entry list consists of exactly the accepted records
before the first non-accepted one: every record strictly before
position `entries.length` is accepted (full 136 bytes available, size
neither 0 nor the sentinel, nonempty decoded name) and the record at
position `entries.length` is not. In particular a sentinel-size record
at table position k, with all earlier records accepted, yields exactly
k entries. -/
theorem parse_entry_count (data : List Nat) :
    ((∀ j, j < (parseSff data).1.length → acceptedRecord data j = true) ∧
      acceptedRecord data ((parseSff data).1.length) = false) ∧
      (∀ k, (∀ j, j < k → acceptedRecord data j = true) →
        136 * k + 136 ≤ data.length → readU32LE data (136 * k) = SENTINEL →
          (parseSff data).1.length = k) := by
  obtain ⟨h1, h2⟩ := parseLoop_accepted data
  refine ⟨⟨h1, h2⟩, ?_⟩
  intro k hacc hk hsent
  rcases Nat.lt_trichotomy (parseSff data).1.length k with hlt | heq | hgt
  · have hx := hacc _ hlt
    rw [hx] at h2
    cases h2
  · exact heq
  · have hx := h1 k hgt
    rw [acceptedRecord] at hx
    simp [hsent] at hx

set_option maxRecDepth 4000 in
/-- Witness for C2: a buffer holding one good record followed by a
sentinel record at table position 1 parses to exactly one entry. -/
theorem parse_entry_count_witness : (parseSff wSentData).1.length = 1 :=
  (parse_entry_count wSentData).2 1 (by decide) (by decide) (by decide)

/-- C3: the payload offset returned by the parser always equals 136
times the number of returned entries. -/
theorem payload_offset_eq (data : List Nat) :
    (parseSff data).2 = 136 * (parseSff data).1.length := by
  have h := parseLoop_snd data 0
  simpa [parseSff, ENTRY_SIZE] using h

/-- C4: on an archive of N entries the run performs exactly N progress
calls, one per entry whether written or skipped, the j-th call carrying
(j+1, N): first arguments 1..N in strictly increasing order, second
argument always N. -/
theorem extract_progress_calls (data : List Nat) (entries : List Entry) (off : Nat) :
    (extractAll data entries off).progress
      = (List.range entries.length).map (fun j => (j + 1, entries.length)) := by
  rw [extractAll, extractLoop_progress data entries.length entries 0 off]
  apply List.map_congr_left
  intro j hj
  congr 1
  omega

/-- C5: an entry is skipped — outcome `skipped`, no file written for it
— exactly when each of its sanitized path segments is empty or the
placeholder, and the final skip counter counts exactly those entries;
conversely an entry with any other segment is written, not counted. -/
theorem extract_skips_unrecoverable (data : List Nat) (entries : List Entry)
    (off : Nat) :
    (extractAll data entries off).outcomes.map isSkip
        = entries.map entryUnrecoverable ∧
      (extractAll data entries off).skipped
        = (entries.filter entryUnrecoverable).length :=
  extractLoop_skips data entries.length entries 0 off

/-- C6: every character of every segment produced by sanitization is
printable and outside the reserved set. -/
theorem sanitize_segments_clean (s : List Char) (seg : List Char) (c : Char)
    (hseg : seg ∈ sanitizedParts s) (hc : c ∈ seg) :
    pyIsPrintable c = true ∧ reservedChars.contains c = false := by
  rw [sanitizedParts] at hseg
  obtain ⟨p, hp, rfl⟩ := List.mem_map.mp hseg
  have hk := keepChar_of_mem_sanitize hc
  rw [keepChar, Bool.and_eq_true] at hk
  exact ⟨hk.1, by simpa using hk.2⟩

/-- Witness for C6 at the raw name a:b, whose single sanitized segment
is ab. -/
theorem sanitize_segments_clean_witness :
    pyIsPrintable 'a' = true ∧ reservedChars.contains 'a' = false :=
  sanitize_segments_clean ['a', ':', 'b'] ['a', 'b'] 'a' (by decide) (by decide)

/-- C7: the sanitizer is idempotent — sanitizing a sanitized name
changes nothing. -/
theorem sanitize_idem (s : List Char) :
    sanitizeFilename (sanitizeFilename s) = sanitizeFilename s :=
  sanitizeFilename_idem s

/-- C8: the parser never fails on malformed content mid-table: with the
fallibility of the size decode kept explicit (struct.unpack raises
unless given exactly four bytes) the parse of any buffer still
succeeds, because the loop guard guarantees a full record; and the name
decode is lossy and total by construction (`decodeByte` maps every
non-ASCII byte to the replacement character). Failures to open or read
the source are outside the byte-level model. -/
theorem parse_never_fails_mid_table (data : List Nat) :
    parseSffChecked data = some (parseSff data) :=
  parseLoopChecked_eq data 0

/-- C9: every entry consumes its payload bytes even when skipped: when
the source holds the payload of the first i entries, the cursor after
processing them — that is, before processing entry i — is the data
offset plus the sum of the sizes of entries 0..i-1, and the whole run
is exactly the prefix run followed by the run of the remaining entries
from that cursor, so a skip never shifts the bytes later entries read. -/
theorem extract_reads_sequential (data : List Nat) (entries : List Entry)
    (off i : Nat) (h : off + sumSizes (entries.take i) ≤ data.length)
    (hi : i ≤ entries.length) :
    (extractLoop data entries.length (entries.take i) 0 off).cursor
        = off + sumSizes (entries.take i) ∧
      extractAll data entries off
        = seqResult (extractLoop data entries.length (entries.take i) 0 off)
            (extractLoop data entries.length (entries.drop i) i
              (off + sumSizes (entries.take i))) :=
  ⟨(extractLoop_cursor data entries.length (entries.take i) 0 off h),
    extractLoop_split data entries.length entries i off h hi⟩

/-- Witness for C9: a skipped first entry (corrupted name) still moves
the cursor past its two payload bytes. -/
theorem extract_reads_sequential_witness :
    ((extractLoop wCurData wCurEntries.length (wCurEntries.take 1) 0 0).cursor
        = 0 + sumSizes (wCurEntries.take 1) ∧
      extractAll wCurData wCurEntries 0
        = seqResult
            (extractLoop wCurData wCurEntries.length (wCurEntries.take 1) 0 0)
            (extractLoop wCurData wCurEntries.length (wCurEntries.drop 1) 1
              (0 + sumSizes (wCurEntries.take 1)))) :=
  extract_reads_sequential wCurData wCurEntries 0 1 (by decide) (by decide)

/-- C10: the parse result never depends on the four trailing bytes of
any record (byte offsets 132..135 within each 136-byte record): buffers
of one length that agree on every byte whose offset within its record
is below 132 parse to the same entries and the same payload offset. -/
theorem parse_ignores_record_tails (d1 d2 : List Nat)
    (hlen : d1.length = d2.length)
    (hagree : ∀ i, i % 136 < 132 → byteAt d1 i = byteAt d2 i) :
    parseSff d1 = parseSff d2 := by
  have h := parseLoop_congr_aux d1 d2 hlen hagree (d1.length + 1) 0 (by omega)
  simpa [parseSff] using h

set_option maxRecDepth 4000 in
/-- Witness for C10: two one-record buffers differing only in the four
trailing bytes of the record parse identically. -/
theorem parse_ignores_record_tails_witness :
    parseSff tailData1 = parseSff tailData2 := by
  have hb : ∀ i, i < 132 → byteAt tailData1 i = byteAt tailData2 i := by decide
  have h1 : tailData1.length = 136 := by decide
  have h2 : tailData2.length = 136 := by decide
  refine parse_ignores_record_tails tailData1 tailData2 (by rw [h1, h2]) ?_
  intro i hi
  by_cases hlt : i < 132
  · exact hb i hlt
  · have hge : 136 ≤ i := by omega
    rw [byteAt, byteAt, List.getD_eq_default _ _ (by omega),
      List.getD_eq_default _ _ (by omega)]

end SffUnpacker
